import Mathlib

/-!
Verification of the famjam task-scheduling core (`app.py`).

The definitions below are a shallow embedding of the Python source:

* calendar dates and the recurrence expander of `create_event`
  (app.py lines 1004-1029), including `relativedelta(months=1)`
  month stepping with day clamping;
* the idempotent bulk insert of task instances (app.py lines 1031-1052,
  backed by the unique index on (family_id, name, due_date, assigned_to)
  created at app.py lines 111-114);
* the missed-task sweep `mark_missed_tasks` (app.py lines 181-244);
* the habit check-in `checkin_habit` (app.py lines 1158-1204);
* the reward redemption flow `request_reward` / `resolve_reward_request`
  (app.py lines 855-901 and 803-853);
* the bulk approval `bulk_approve_events` (app.py lines 1251-1315);
* the points-ledger mutations (the seven `$inc` sites on the users
  collection).

Machine times are abstracted to `Nat` timestamps and local calendar
dates; MongoDB collections are lists of documents; atomic increments are
explicit arithmetic on balances.  A route that rejects a request (flash
an error and redirect without any write) is modelled as returning
`none` / leaving the state unchanged.
-/

set_option maxRecDepth 8000

namespace FamJam

/-! ## Calendar dates

`create_event` steps due dates with `timedelta(days=1)`,
`timedelta(weeks=1)` and `relativedelta(months=1)` on timezone-aware
midnights; at date granularity this is exact calendar arithmetic on
(year, month, day) triples, with `relativedelta` clamping the day to the
length of the target month. -/

structure CalDate where
  year : Nat
  month : Nat
  day : Nat
deriving DecidableEq, Repr

/-- Gregorian leap-year rule (as used by Python's `calendar`/`datetime`). -/
def isLeap (y : Nat) : Bool :=
  y % 4 == 0 && (y % 100 != 0 || y % 400 == 0)

def daysInMonth (y m : Nat) : Nat :=
  if m = 2 then (if isLeap y then 29 else 28)
  else if m = 4 ∨ m = 6 ∨ m = 9 ∨ m = 11 then 30
  else 31

/-- A well-formed calendar date. -/
def ValidDate (d : CalDate) : Prop :=
  1 ≤ d.month ∧ d.month ≤ 12 ∧ 1 ≤ d.day ∧ d.day ≤ daysInMonth d.year d.month

instance (d : CalDate) : Decidable (ValidDate d) := by
  unfold ValidDate; infer_instance

/-- Chronological strict order on calendar dates (lexicographic on
year, month, day — which is chronological for well-formed dates). -/
def dlt (a b : CalDate) : Prop :=
  a.year < b.year ∨ (a.year = b.year ∧ (a.month < b.month ∨ (a.month = b.month ∧ a.day < b.day)))

instance (a b : CalDate) : Decidable (dlt a b) := by
  unfold dlt; infer_instance

/-- The next calendar day (`timedelta(days=1)`). -/
def succDate (d : CalDate) : CalDate :=
  if d.day < daysInMonth d.year d.month then ⟨d.year, d.month, d.day + 1⟩
  else if d.month < 12 then ⟨d.year, d.month + 1, 1⟩
  else ⟨d.year + 1, 1, 1⟩

/-- `timedelta(days=n)` on a date. -/
def addDays (n : Nat) (d : CalDate) : CalDate :=
  succDate^[n] d

/-- `relativedelta(months=1)`: step to the next month, clamping the day
to the length of the target month (Jan 31 + 1 month = Feb 28/29). -/
def addMonths1 (d : CalDate) : CalDate :=
  if d.month < 12 then
    ⟨d.year, d.month + 1, min d.day (daysInMonth d.year (d.month + 1))⟩
  else
    ⟨d.year + 1, 1, min d.day (daysInMonth (d.year + 1) 1)⟩

/-- A linear measure embedding the chronological order on valid dates
(used to bound the scheduling loop). -/
def mu (d : CalDate) : Nat :=
  372 * d.year + 31 * d.month + d.day

/-! ## Recurrence expander (`create_event`, app.py 1004-1029)

```
end_date = start_date + timedelta(days=90)
current_date = start_date
delta = {'daily': timedelta(days=1), 'weekly': timedelta(weeks=1),
         'monthly': relativedelta(months=1)}.get(recurrence)
while current_date < end_date:
    ...
    current_date += delta
```
-/

inductive Recurrence
  | daily
  | weekly
  | monthly
deriving DecidableEq, Repr

/-- The `delta` step applied by `current_date += delta`. -/
def stepOf : Recurrence → CalDate → CalDate
  | .daily => addDays 1
  | .weekly => addDays 7
  | .monthly => addMonths1

/-- The `while current_date < end_date` loop, emitting each due date.
`fuel` is an upper bound on the number of iterations; `genDates` below
supplies fuel that provably exceeds the loop's actual trip count. -/
def genAux (step : CalDate → CalDate) (endD : CalDate) : Nat → CalDate → List CalDate
  | 0, _ => []
  | fuel + 1, cur => if dlt cur endD then cur :: genAux step endD fuel (step cur) else []

/-- The due dates generated for a recurring template: start date stepped
by the recurrence delta while strictly before start + 90 days. -/
def genDates (r : Recurrence) (start : CalDate) : List CalDate :=
  genAux (stepOf r) (addDays 90 start) 366 start

/-! ## Assignee resolution (`create_event`, app.py 1020-1028)

```
child_cycler = itertools.cycle(child_ids)
while current_date < end_date:
    assignees = child_ids if assigned_to_value == "__ALL__" else
      ([next(child_cycler)] if assigned_to_value == "__ROUND_ROBIN__"
       else [assigned_to_value])
    for user_id in assignees:
        if user_id not in child_ids: continue
        ...
```
`next(child_cycler)` is evaluated once per generated date (never inside
the per-child fan-out), so the k-th generated date draws
`child_ids[k % len(child_ids)]`. -/

inductive AssignVal
  | all
  | roundRobin
  | specific (uid : String)
deriving DecidableEq

/-- Assignees receiving an instance on the k-th generated date. -/
def assigneesFor (childIds : List String) (av : AssignVal) (k : Nat) : List String :=
  match av with
  | .all => childIds
  | .roundRobin => [childIds.getD (k % childIds.length) ""]
  | .specific uid => if uid ∈ childIds then [uid] else []

/-- All (due-date, assignee) pairs generated for one template
(`recurrence = none` produces a single date; otherwise the 90-day
expansion). -/
def expandTemplate (childIds : List String) (av : AssignVal) (r : Option Recurrence)
    (start : CalDate) : List (CalDate × String) :=
  match r with
  | none => (assigneesFor childIds av 0).map (fun uid => (start, uid))
  | some rr =>
      (genDates rr start).enum.flatMap
        (fun kd => (assigneesFor childIds av kd.1).map (fun uid => (kd.2, uid)))

/-! ## Task store (`create_event` bulk insert, app.py 1031-1052)

Each candidate instance becomes `UpdateOne(filter_doc, {'$setOnInsert':
doc}, upsert=True)` where `filter_doc` is the (family_id, name,
due_date, assigned_to) key; the store inserts the document only when no
existing document matches the key, and `result.upserted_count` reports
the number actually inserted. -/

structure EventDoc where
  familyId : String
  name : String
  dueDate : CalDate
  assignedTo : String
  points : Nat
  etype : String
  status : String
deriving DecidableEq

/-- The (family_id, name, due_date, assigned_to) uniqueness key of the
index created at app.py 111-114. -/
def sameKey (a b : EventDoc) : Bool :=
  decide (a.familyId = b.familyId ∧ a.name = b.name ∧
          a.dueDate = b.dueDate ∧ a.assignedTo = b.assignedTo)

/-- Whether the store already holds a document with this document's key. -/
def hasKey (store : List EventDoc) (d : EventDoc) : Bool :=
  store.any (fun e => sameKey e d)

/-- The unordered bulk upsert: insert-if-absent for each candidate, and
the count of documents actually inserted (`upserted_count`). -/
def scheduleMany : List EventDoc → List EventDoc → List EventDoc × Nat
  | [], store => (store, 0)
  | d :: ds, store =>
    if hasKey store d then scheduleMany ds store
    else
      let r := scheduleMany ds (store ++ [d])
      (r.1, r.2 + 1)

/-- The document built for one (due-date, assignee) pair
(app.py 997-1028: `base_doc_template` copied with `assigned_to` and
`due_date` filled in; status starts as 'assigned'). -/
def mkDoc (famId nm : String) (points : Nat) (etype : String)
    (p : CalDate × String) : EventDoc :=
  { familyId := famId, name := nm, dueDate := p.1, assignedTo := p.2,
    points := points, etype := etype, status := "assigned" }

/-- All documents `create_event` generates for one template. -/
def createEventDocs (famId nm : String) (points : Nat) (etype : String)
    (childIds : List String) (av : AssignVal) (r : Option Recurrence)
    (start : CalDate) : List EventDoc :=
  (expandTemplate childIds av r start).map (mkDoc famId nm points etype)

/-! ## Per-assignee accumulator (`defaultdict(int)`)

Both `mark_missed_tasks` and `bulk_approve_events` accumulate one total
per user id in a `defaultdict(int)` and then issue one `UpdateOne` per
dictionary entry.  The dictionary is modelled as an association list
with distinct keys. -/

/-- Add `a` to key `u`'s entry, creating the entry if absent
(`dict[u] += a`). -/
def bump (u : String) (a : Nat) (acc : List (String × Nat)) : List (String × Nat) :=
  if acc.any (fun q => q.1 == u) then
    acc.map (fun q => if q.1 == u then (q.1, q.2 + a) else q)
  else acc ++ [(u, a)]

/-- Fold a list of (user, amount) contributions into the dictionary. -/
def accumFrom (acc : List (String × Nat)) (l : List (String × Nat)) : List (String × Nat) :=
  l.foldl (fun acc p => bump p.1 p.2 acc) acc

def accumulate (l : List (String × Nat)) : List (String × Nat) :=
  accumFrom [] l

/-- Keys of an association list. -/
def keysOf (l : List (String × Nat)) : List String :=
  l.map (fun p => p.1)

/-- Total amount recorded for one user across the listed updates. -/
def sumKey (uid : String) (l : List (String × Nat)) : Nat :=
  ((l.filter (fun p => p.1 == uid)).map (fun p => p.2)).sum

/-! ## Missed-task sweep (`mark_missed_tasks`, app.py 181-244) -/

structure Task where
  points : Nat
  assignedTo : String
  status : String
  dueDate : CalDate
  missedAt : Option Nat
deriving DecidableEq

/-- The sweep's query: due date inside yesterday's local
midnight-to-midnight window and status still 'assigned'. -/
def isMissedCandidate (yesterday : CalDate) (t : Task) : Bool :=
  decide (t.dueDate = yesterday ∧ t.status = "assigned")

/-- `math.floor(points * MISSED_TASK_PENALTY_FACTOR)` with
`MISSED_TASK_PENALTY_FACTOR = 0.5`: on integer point values this is
exactly integer division by two. -/
def missedTaskPenalty (points : Nat) : Nat :=
  points / 2

/-- The batched event update: every candidate task is set to status
'missed' with `missed_at` stamped; every other task is untouched. -/
def markMissedEvents (yesterday : CalDate) (now : Nat) (tasks : List Task) : List Task :=
  tasks.map (fun t =>
    if isMissedCandidate yesterday t then
      { t with status := "missed", missedAt := some now }
    else t)

/-- The batched ledger decrements: positive penalties accumulated per
assignee (`if penalty > 0 and task.get('assigned_to')`), one entry per
distinct assignee. -/
def sweepPenalties (yesterday : CalDate) (tasks : List Task) : List (String × Nat) :=
  accumulate
    (((tasks.filter (isMissedCandidate yesterday)).filter
        (fun t => decide (0 < missedTaskPenalty t.points))).map
      (fun t => (t.assignedTo, missedTaskPenalty t.points)))

/-- Apply a batch of `{'$inc': {'points': -total}}` updates to the user
balances (current points may go negative; lifetime points untouched). -/
def applyUserDecs (updates : List (String × Nat)) (bal : String → Int) : String → Int :=
  fun uid => bal uid - sumKey uid updates

/-! ## Habit check-in (`checkin_habit`, app.py 1158-1204)

Local dates in the streak logic are totally ordered calendar days;
they are modelled by integer day numbers, `today - timedelta(days=1)`
being `today - 1`. -/

structure Habit where
  points : Nat
  streak : Nat
  lastCompleted : Option Int
  status : String
deriving DecidableEq

structure Balances where
  points : Int
  lifetimePoints : Int
deriving DecidableEq

/-- One check-in attempt: `none` models a rejection (flash + redirect,
no write).  On success the habit's streak and `last_completed` are
updated and the points are credited immediately to both balances. -/
def checkinHabit (today : Int) (h : Habit) (b : Balances) : Option (Habit × Balances) :=
  if h.status = "missed" then none
  else if h.lastCompleted = some today then none
  else
    some ({ h with
              streak := if h.lastCompleted = some (today - 1) then h.streak + 1 else 1,
              lastCompleted := some today },
          { points := b.points + (h.points : Int),
            lifetimePoints := b.lifetimePoints + (h.points : Int) })

/-- The store state after a check-in request: unchanged when rejected. -/
def checkinHabitEffect (today : Int) (h : Habit) (b : Balances) : Habit × Balances :=
  match checkinHabit today h b with
  | none => (h, b)
  | some hb => hb

/-! ## Reward redemption (`request_reward` app.py 855-901,
`resolve_reward_request` app.py 803-853) -/

structure RewardRequest where
  cost : Nat
  status : String
deriving DecidableEq

/-- Creation: guarded by `user['points'] < reward['cost']`; on success
the cost is debited immediately and a pending request row is inserted. -/
def requestReward (cost : Nat) (points : Int) : Option (Int × RewardRequest) :=
  if points < (cost : Int) then none
  else some (points - (cost : Int), { cost := cost, status := "pending" })

inductive ResolveAction
  | approve
  | deny
deriving DecidableEq

/-- Resolution: only a pending request may be resolved; approval makes
no balance change, denial refunds the cost. -/
def resolveRewardRequest (action : ResolveAction) (req : RewardRequest) (points : Int) :
    Option (RewardRequest × Int) :=
  if req.status = "pending" then
    match action with
    | .approve => some ({ req with status := "approved" }, points)
    | .deny => some ({ req with status := "denied" }, points + (req.cost : Int))
  else none

/-! ## Bulk approval (`bulk_approve_events`, app.py 1251-1315) -/

structure BulkTask where
  id : Nat
  familyId : String
  assignedTo : String
  points : Nat
  status : String
  approvedAt : Option Nat
deriving DecidableEq

/-- The selection query: id in the submitted batch, task owned by the
parent's family, and status 'completed'. -/
def bulkSelected (famId : String) (eventIds : List Nat) (t : BulkTask) : Bool :=
  decide (t.id ∈ eventIds ∧ t.familyId = famId ∧ t.status = "completed")

/-- `valid_event_ids_to_update`: ids of all selected tasks. -/
def bulkValidIds (famId : String) (eventIds : List Nat) (tasks : List BulkTask) : List Nat :=
  (tasks.filter (bulkSelected famId eventIds)).map (fun t => t.id)

/-- `points_to_award`: per-assignee sums of the positive awards in the
batch (`if award > 0 and event.get('assigned_to')`), one `$inc` ledger
write per dictionary entry. -/
def bulkPointsToAward (famId : String) (eventIds : List Nat) (tasks : List BulkTask) :
    List (String × Nat) :=
  accumulate
    (((tasks.filter (bulkSelected famId eventIds)).filter
        (fun t => decide (0 < t.points))).map
      (fun t => (t.assignedTo, t.points)))

/-- The `update_many` setting every selected task to 'approved'. -/
def bulkApproveEvents (famId : String) (eventIds : List Nat) (now : Nat)
    (tasks : List BulkTask) : List BulkTask :=
  tasks.map (fun t =>
    if t.id ∈ bulkValidIds famId eventIds tasks then
      { t with status := "approved", approvedAt := some now }
    else t)

/-- Apply a batch of `{'$inc': {'points': pts, 'lifetime_points': pts}}`
updates to user balances. -/
def applyUserIncs (updates : List (String × Nat)) (bal : String → Balances) :
    String → Balances :=
  fun uid =>
    { points := (bal uid).points + (sumKey uid updates : Int),
      lifetimePoints := (bal uid).lifetimePoints + (sumKey uid updates : Int) }

/-! ## Points-ledger mutations

The seven `$inc` sites on the users collection in app.py:
chore approval (line 1240), bulk approval (line 1294), habit check-in
(line 1200), challenge approval (line 1784), missed-task penalty
(line 233), reward-request debit (line 884), denial refund (line 839). -/

inductive LedgerOp
  | approveChore (award : Nat)
  | bulkApproveUser (total : Nat)
  | habitCheckinCredit (award : Nat)
  | challengeApprove (award : Nat)
  | missedPenaltyDec (totalPenalty : Nat)
  | rewardRequestDebit (cost : Nat)
  | rewardDenyRefund (cost : Nat)
deriving DecidableEq

def applyLedgerOp : LedgerOp → Balances → Balances
  | .approveChore a, b =>
      { points := b.points + (a : Int), lifetimePoints := b.lifetimePoints + (a : Int) }
  | .bulkApproveUser a, b =>
      { points := b.points + (a : Int), lifetimePoints := b.lifetimePoints + (a : Int) }
  | .habitCheckinCredit a, b =>
      { points := b.points + (a : Int), lifetimePoints := b.lifetimePoints + (a : Int) }
  | .challengeApprove a, b =>
      { points := b.points + (a : Int), lifetimePoints := b.lifetimePoints + (a : Int) }
  | .missedPenaltyDec p, b =>
      { points := b.points - (p : Int), lifetimePoints := b.lifetimePoints }
  | .rewardRequestDebit c, b =>
      { points := b.points - (c : Int), lifetimePoints := b.lifetimePoints }
  | .rewardDenyRefund c, b =>
      { points := b.points + (c : Int), lifetimePoints := b.lifetimePoints }

/-! ## Event-status writes

Every write of a task instance's `status` field in app.py, with the
value it writes: the sweep (line 215), `complete_event` (line 1150),
`approve_event` (line 1234), `bulk_approve_events` (line 1305), and the
initial status stored on insertion by `create_event` (line 999) and
`apply_famjam_plan` (line 2655).  (`edit_event` rewrites other fields
but never `status`; `delete_event` removes documents.) -/

inductive EventStatusWrite
  | markMissedSweep
  | completeEvent
  | approveEvent
  | bulkApproveWrite
  | createEventInsert
  | applyPlanInsert
deriving DecidableEq

def writtenStatus : EventStatusWrite → String
  | .markMissedSweep => "missed"
  | .completeEvent => "completed"
  | .approveEvent => "approved"
  | .bulkApproveWrite => "approved"
  | .createEventInsert => "assigned"
  | .applyPlanInsert => "assigned"

/-! # Theorems -/

/-! ## Basic date lemmas -/

@[simp] theorem year_mk (y m d : Nat) : (CalDate.mk y m d).year = y := rfl

@[simp] theorem month_mk (y m d : Nat) : (CalDate.mk y m d).month = m := rfl

@[simp] theorem day_mk (y m d : Nat) : (CalDate.mk y m d).day = d := rfl

theorem daysInMonth_ge (y m : Nat) : 28 ≤ daysInMonth y m := by
  unfold daysInMonth; split_ifs <;> omega

theorem daysInMonth_le (y m : Nat) : daysInMonth y m ≤ 31 := by
  unfold daysInMonth; split_ifs <;> omega

theorem daysInMonth_twelve (y : Nat) : daysInMonth y 12 = 31 := by
  unfold daysInMonth; norm_num

theorem validDate_succDate (d : CalDate) (hd : ValidDate d) : ValidDate (succDate d) := by
  obtain ⟨h1, h2, h3, h4⟩ := hd
  have g1 := daysInMonth_ge d.year d.month
  have g2 := daysInMonth_ge d.year (d.month + 1)
  have g3 := daysInMonth_ge (d.year + 1) 1
  unfold succDate ValidDate
  split_ifs with c1 c2 <;> simp only [year_mk, month_mk, day_mk] <;> omega

theorem mu_succDate_lower (d : CalDate) (hd : ValidDate d) : mu d + 1 ≤ mu (succDate d) := by
  obtain ⟨h1, h2, h3, h4⟩ := hd
  have g1 := daysInMonth_ge d.year d.month
  have g2 := daysInMonth_le d.year d.month
  unfold succDate mu
  split_ifs with c1 c2 <;> simp only [year_mk, month_mk, day_mk] <;> omega

theorem mu_succDate_upper (d : CalDate) (hd : ValidDate d) : mu (succDate d) ≤ mu d + 4 := by
  obtain ⟨h1, h2, h3, h4⟩ := hd
  have g1 := daysInMonth_ge d.year d.month
  have g2 := daysInMonth_le d.year d.month
  have g3 := daysInMonth_twelve d.year
  unfold succDate mu
  split_ifs with c1 c2 <;> simp only [year_mk, month_mk, day_mk] <;> omega

theorem validDate_addMonths1 (d : CalDate) (hd : ValidDate d) : ValidDate (addMonths1 d) := by
  obtain ⟨h1, h2, h3, h4⟩ := hd
  have g1 := daysInMonth_ge d.year (d.month + 1)
  have g2 := daysInMonth_ge (d.year + 1) 1
  unfold addMonths1 ValidDate
  split_ifs with c1 <;> simp only [year_mk, month_mk, day_mk] <;> omega

theorem mu_addMonths1_lower (d : CalDate) (hd : ValidDate d) : mu d + 28 ≤ mu (addMonths1 d) := by
  obtain ⟨h1, h2, h3, h4⟩ := hd
  have g2 := daysInMonth_le d.year d.month
  have ga := daysInMonth_ge d.year (d.month + 1)
  have gb := daysInMonth_le d.year (d.month + 1)
  have gc := daysInMonth_ge (d.year + 1) 1
  have gd := daysInMonth_le (d.year + 1) 1
  unfold addMonths1 mu
  split_ifs with c1 <;> simp only [year_mk, month_mk, day_mk] <;> omega

theorem dlt_mu (a b : CalDate) (ha : ValidDate a) (hb : ValidDate b) (h : dlt a b) :
    mu a < mu b := by
  obtain ⟨a1, a2, a3, a4⟩ := ha
  obtain ⟨b1, b2, b3, b4⟩ := hb
  have ga := daysInMonth_le a.year a.month
  have gb := daysInMonth_le b.year b.month
  unfold mu
  rcases h with h | ⟨hy, h | ⟨hm, h⟩⟩ <;> omega

theorem dlt_trichotomy (a b : CalDate) : dlt a b ∨ a = b ∨ dlt b a := by
  rcases a with ⟨ya, ma, da⟩
  rcases b with ⟨yb, mb, db⟩
  simp only [dlt, CalDate.mk.injEq, year_mk, month_mk, day_mk]
  omega

theorem not_dlt_iff_mu (a b : CalDate) (ha : ValidDate a) (hb : ValidDate b) :
    ¬ dlt a b ↔ mu b ≤ mu a := by
  constructor
  · intro h
    rcases dlt_trichotomy a b with h1 | h1 | h1
    · exact absurd h1 h
    · exact le_of_eq (by rw [h1])
    · exact le_of_lt (dlt_mu b a hb ha h1)
  · intro h hab
    exact absurd (dlt_mu a b ha hb hab) (by omega)

theorem validDate_addDays (n : Nat) (d : CalDate) (hd : ValidDate d) :
    ValidDate (addDays n d) := by
  induction n with
  | zero => simpa [addDays] using hd
  | succ k ih =>
    have h1 : addDays (k + 1) d = succDate (addDays k d) := by
      simp [addDays, Function.iterate_succ_apply']
    rw [h1]
    exact validDate_succDate _ ih

theorem mu_addDays_lower (n : Nat) (d : CalDate) (hd : ValidDate d) :
    mu d + n ≤ mu (addDays n d) := by
  induction n with
  | zero => simp [addDays]
  | succ k ih =>
    have h1 : addDays (k + 1) d = succDate (addDays k d) := by
      simp [addDays, Function.iterate_succ_apply']
    rw [h1]
    have := mu_succDate_lower (addDays k d) (validDate_addDays k d hd)
    omega

theorem mu_addDays_upper (n : Nat) (d : CalDate) (hd : ValidDate d) :
    mu (addDays n d) ≤ mu d + 4 * n := by
  induction n with
  | zero => simp [addDays]
  | succ k ih =>
    have h1 : addDays (k + 1) d = succDate (addDays k d) := by
      simp [addDays, Function.iterate_succ_apply']
    rw [h1]
    have := mu_succDate_upper (addDays k d) (validDate_addDays k d hd)
    omega

/-! ## The scheduling loop -/

theorem validDate_iterate (step : CalDate → CalDate)
    (hstep : ∀ x, ValidDate x → ValidDate (step x)) :
    ∀ (k : Nat) (cur : CalDate), ValidDate cur → ValidDate (step^[k] cur) := by
  intro k
  induction k with
  | zero => intro cur h; simpa using h
  | succ j ih =>
    intro cur h
    rw [Function.iterate_succ_apply]
    exact ih (step cur) (hstep cur h)

theorem mu_iterate_lower (step : CalDate → CalDate)
    (hstep : ∀ x, ValidDate x → ValidDate (step x))
    (hmu : ∀ x, ValidDate x → mu x + 1 ≤ mu (step x)) :
    ∀ (k : Nat) (cur : CalDate), ValidDate cur → mu cur + k ≤ mu (step^[k] cur) := by
  intro k
  induction k with
  | zero => intro cur _; simp
  | succ j ih =>
    intro cur h
    rw [Function.iterate_succ_apply]
    have h1 := hmu cur h
    have h2 := ih (step cur) (hstep cur h)
    omega

theorem genAux_get (step : CalDate → CalDate) (endD : CalDate) :
    ∀ (fuel : Nat) (cur : CalDate) (i : Nat)
      (h : i < (genAux step endD fuel cur).length),
      (genAux step endD fuel cur).get ⟨i, h⟩ = step^[i] cur := by
  intro fuel
  induction fuel with
  | zero => intro cur i h; simp [genAux] at h
  | succ f ih =>
    intro cur i h
    by_cases hc : dlt cur endD
    · have hg : genAux step endD (f + 1) cur = cur :: genAux step endD f (step cur) := by
        simp [genAux, hc]
      revert h
      rw [hg]
      intro h
      match i with
      | 0 => simp
      | j + 1 =>
        simp only [List.get_cons_succ]
        rw [ih (step cur) j (by simpa using h)]
        rw [Function.iterate_succ_apply]
    · have hg : genAux step endD (f + 1) cur = [] := by simp [genAux, hc]
      rw [hg] at h
      simp at h

theorem genAux_mem (step : CalDate → CalDate) (endD : CalDate)
    (hstep : ∀ x, ValidDate x → ValidDate (step x))
    (hmu : ∀ x, ValidDate x → mu x + 1 ≤ mu (step x))
    (hend : ValidDate endD) :
    ∀ (fuel : Nat) (cur : CalDate), ValidDate cur →
      (∃ K, K ≤ fuel ∧ mu endD ≤ mu (step^[K] cur)) →
      ∀ d, d ∈ genAux step endD fuel cur ↔
        (∃ k, step^[k] cur = d) ∧ dlt d endD := by
  intro fuel
  induction fuel with
  | zero =>
    intro cur hcur hK d
    simp only [genAux, List.not_mem_nil, false_iff]
    rintro ⟨⟨k, rfl⟩, hd⟩
    obtain ⟨K, hK0, hKmu⟩ := hK
    have hK0' : K = 0 := by omega
    subst hK0'
    simp only [Function.iterate_zero, id_eq] at hKmu
    have h1 := mu_iterate_lower step hstep hmu k cur hcur
    have h2 := dlt_mu _ _ (validDate_iterate step hstep k cur hcur) hend hd
    omega
  | succ f ih =>
    intro cur hcur hK d
    by_cases hc : dlt cur endD
    · simp only [genAux, if_pos hc, List.mem_cons]
      have hK' : ∃ K, K ≤ f ∧ mu endD ≤ mu (step^[K] (step cur)) := by
        obtain ⟨K, hK0, hKmu⟩ := hK
        match K with
        | 0 =>
          exfalso
          simp only [Function.iterate_zero, id_eq] at hKmu
          have := dlt_mu cur endD hcur hend hc
          omega
        | K' + 1 =>
          refine ⟨K', by omega, ?_⟩
          rw [Function.iterate_succ_apply] at hKmu
          exact hKmu
      rw [ih (step cur) (hstep cur hcur) hK' d]
      constructor
      · rintro (rfl | ⟨⟨k, rfl⟩, hd⟩)
        · exact ⟨⟨0, rfl⟩, hc⟩
        · exact ⟨⟨k + 1, by rw [Function.iterate_succ_apply]⟩, hd⟩
      · rintro ⟨⟨k, rfl⟩, hd⟩
        match k with
        | 0 => exact Or.inl rfl
        | j + 1 =>
          refine Or.inr ⟨⟨j, ?_⟩, hd⟩
          rw [Function.iterate_succ_apply]
    · simp only [genAux, if_neg hc, List.not_mem_nil, false_iff]
      rintro ⟨⟨k, rfl⟩, hd⟩
      rw [not_dlt_iff_mu cur endD hcur hend] at hc
      have h1 := mu_iterate_lower step hstep hmu k cur hcur
      have h2 := dlt_mu _ _ (validDate_iterate step hstep k cur hcur) hend hd
      omega

theorem stepOf_valid (r : Recurrence) (x : CalDate) (hx : ValidDate x) :
    ValidDate (stepOf r x) := by
  cases r with
  | daily => exact validDate_addDays 1 x hx
  | weekly => exact validDate_addDays 7 x hx
  | monthly => exact validDate_addMonths1 x hx

theorem stepOf_mu (r : Recurrence) (x : CalDate) (hx : ValidDate x) :
    mu x + 1 ≤ mu (stepOf r x) := by
  cases r with
  | daily => simp only [stepOf]; exact mu_addDays_lower 1 x hx
  | weekly => have := mu_addDays_lower 7 x hx; simp only [stepOf]; omega
  | monthly => have := mu_addMonths1_lower x hx; simp only [stepOf]; omega

theorem genDates_term (r : Recurrence) (start : CalDate) (h : ValidDate start) :
    ∃ K, K ≤ 366 ∧ mu (addDays 90 start) ≤ mu ((stepOf r)^[K] start) := by
  refine ⟨360, by omega, ?_⟩
  have h1 := mu_addDays_upper 90 start h
  have h2 := mu_iterate_lower (stepOf r) (stepOf_valid r) (stepOf_mu r) 360 start h
  omega

theorem genDates_get (r : Recurrence) (start : CalDate) (i : Nat)
    (h : i < (genDates r start).length) :
    (genDates r start).get ⟨i, h⟩ = (stepOf r)^[i] start :=
  genAux_get (stepOf r) (addDays 90 start) 366 start i h

theorem genDates_mem (r : Recurrence) (start : CalDate) (h : ValidDate start) (d : CalDate) :
    d ∈ genDates r start ↔
      (∃ k, (stepOf r)^[k] start = d) ∧ dlt d (addDays 90 start) :=
  genAux_mem (stepOf r) (addDays 90 start) (stepOf_valid r) (stepOf_mu r)
    (validDate_addDays 90 start h) 366 start h (genDates_term r start h) d

/-- C6: for a recurring template with recurrence daily, weekly or
monthly, the generated due dates are the start date stepped repeatedly
by 1 day, 7 days, or 1 calendar month (`(stepOf r)^[k] start`), and they
comprise exactly the dates strictly before start + 90 days.  Monthly
stepping uses true calendar-month arithmetic: a template starting
Jan 31, 2025 produces Jan 31, Feb 28, Mar 28, Apr 28 (and, starting
Jan 31, 2024, a leap year: Jan 31, Feb 29, Mar 29, Apr 29) — no month
boundary is skipped or double-counted. -/
theorem spec_c6_recurrence_dates :
    (∀ (r : Recurrence) (start : CalDate), ValidDate start →
      (∀ (i : Nat) (h : i < (genDates r start).length),
          (genDates r start).get ⟨i, h⟩ = (stepOf r)^[i] start) ∧
      (∀ d : CalDate, d ∈ genDates r start ↔
          (∃ k, (stepOf r)^[k] start = d) ∧ dlt d (addDays 90 start)))
    ∧ genDates .monthly ⟨2025, 1, 31⟩ =
        [⟨2025, 1, 31⟩, ⟨2025, 2, 28⟩, ⟨2025, 3, 28⟩, ⟨2025, 4, 28⟩]
    ∧ genDates .monthly ⟨2024, 1, 31⟩ =
        [⟨2024, 1, 31⟩, ⟨2024, 2, 29⟩, ⟨2024, 3, 29⟩, ⟨2024, 4, 29⟩] := by
  refine ⟨fun r start h => ⟨genDates_get r start, genDates_mem r start h⟩, ?_, ?_⟩
  · decide
  · decide

/-- Witness for C6 at a concrete input: the membership characterization
instantiated for the monthly template starting Jan 31, 2025 and the
generated date Feb 28, 2025. -/
theorem spec_c6_witness :
    ValidDate ⟨2025, 1, 31⟩ ∧
    ((⟨2025, 2, 28⟩ : CalDate) ∈ genDates .monthly ⟨2025, 1, 31⟩ ↔
      (∃ k, (stepOf .monthly)^[k] (⟨2025, 1, 31⟩ : CalDate) = ⟨2025, 2, 28⟩) ∧
      dlt ⟨2025, 2, 28⟩ (addDays 90 ⟨2025, 1, 31⟩)) :=
  ⟨by decide,
   (spec_c6_recurrence_dates.1 .monthly ⟨2025, 1, 31⟩ (by decide)).2 ⟨2025, 2, 28⟩⟩

/-! ## Task-store insert-if-absent -/

theorem sameKey_self (d : EventDoc) : sameKey d d = true := by
  simp [sameKey]

theorem hasKey_append (s t : List EventDoc) (d : EventDoc) :
    hasKey (s ++ t) d = (hasKey s d || hasKey t d) := by
  simp [hasKey, List.any_append]

theorem scheduleMany_growth (ds : List EventDoc) :
    ∀ store : List EventDoc, ∃ new : List EventDoc,
      (scheduleMany ds store).1 = store ++ new ∧
      (scheduleMany ds store).2 = new.length ∧
      ∀ e ∈ new, hasKey store e = false := by
  induction ds with
  | nil => intro store; exact ⟨[], by simp [scheduleMany], by simp [scheduleMany], by simp⟩
  | cons d ds ih =>
    intro store
    by_cases h : hasKey store d
    · obtain ⟨new, h1, h2, h3⟩ := ih store
      exact ⟨new, by simpa [scheduleMany, h] using h1, by simpa [scheduleMany, h] using h2, h3⟩
    · obtain ⟨new, h1, h2, h3⟩ := ih (store ++ [d])
      refine ⟨d :: new, ?_, ?_, ?_⟩
      · simp only [scheduleMany, h, if_false, Bool.false_eq_true]
        rw [h1]
        simp
      · simp only [scheduleMany, h, if_false, Bool.false_eq_true]
        rw [h2]
        simp
      · intro e he
        rcases List.mem_cons.mp he with rfl | he'
        · simpa using h
        · have := h3 e he'
          rw [hasKey_append] at this
          simp only [Bool.or_eq_false_iff] at this
          exact this.1

theorem scheduleMany_hasKey_mono (ds : List EventDoc) (store : List EventDoc)
    (x : EventDoc) (h : hasKey store x = true) :
    hasKey (scheduleMany ds store).1 x = true := by
  obtain ⟨new, h1, _, _⟩ := scheduleMany_growth ds store
  rw [h1, hasKey_append, h]
  simp

theorem scheduleMany_mem_key (ds : List EventDoc) :
    ∀ (store : List EventDoc) (d : EventDoc), d ∈ ds →
      hasKey (scheduleMany ds store).1 d = true := by
  induction ds with
  | nil => intro store d h; simp at h
  | cons a ds ih =>
    intro store d h
    by_cases ha : hasKey store a
    · simp only [scheduleMany, ha, if_true]
      rcases List.mem_cons.mp h with rfl | h'
      · exact scheduleMany_hasKey_mono ds store d ha
      · exact ih store d h'
    · simp only [scheduleMany, ha, if_false, Bool.false_eq_true]
      rcases List.mem_cons.mp h with rfl | h'
      · refine scheduleMany_hasKey_mono ds (store ++ [d]) d ?_
        rw [hasKey_append]
        simp [hasKey, sameKey_self]
      · exact ih (store ++ [a]) d h'

theorem scheduleMany_all_present (ds : List EventDoc) :
    ∀ store : List EventDoc, (∀ d ∈ ds, hasKey store d = true) →
      scheduleMany ds store = (store, 0) := by
  induction ds with
  | nil => intro store _; rfl
  | cons a ds ih =>
    intro store h
    have ha : hasKey store a = true := h a (by simp)
    simp only [scheduleMany, ha, if_true]
    exact ih store (fun d hd => h d (by simp [hd]))

/-- C1: the recurring-task scheduling operation (`create_event`'s
generation plus the keyed bulk insert-if-absent) is idempotent: a second
run with identical template, start date, recurrence and roster against
the unchanged store inserts zero instances and leaves the store exactly
as it was; the first run only appends documents whose
(family, name, due-date, assignee) key was absent, never touching
existing documents, and its reported count equals the number of
documents actually created. -/
theorem spec_c1_idempotent_scheduling
    (famId nm : String) (points : Nat) (etype : String)
    (childIds : List String) (av : AssignVal) (r : Option Recurrence) (start : CalDate)
    (store : List EventDoc) :
    scheduleMany (createEventDocs famId nm points etype childIds av r start)
        (scheduleMany (createEventDocs famId nm points etype childIds av r start) store).1
      = ((scheduleMany (createEventDocs famId nm points etype childIds av r start) store).1, 0)
    ∧ ∃ new : List EventDoc,
        (scheduleMany (createEventDocs famId nm points etype childIds av r start) store).1
            = store ++ new
        ∧ (scheduleMany (createEventDocs famId nm points etype childIds av r start) store).2
            = new.length
        ∧ ∀ e ∈ new, hasKey store e = false := by
  constructor
  · exact scheduleMany_all_present _ _
      (fun d hd => scheduleMany_mem_key _ store d hd)
  · exact scheduleMany_growth _ store

/-! ## Round-robin assignment -/

theorem flatMap_single {α β : Type} (l : List α) (g : α → β) :
    (l.flatMap fun x => [g x]) = l.map g := by
  induction l with
  | nil => rfl
  | cons a t ih => simp [List.flatMap_cons, ih]

theorem expandTemplate_roundRobin (ids : List String) (rr : Recurrence) (start : CalDate) :
    expandTemplate ids .roundRobin (some rr) start
      = (genDates rr start).enum.map
          (fun kd => (kd.2, ids.getD (kd.1 % ids.length) "")) := by
  unfold expandTemplate assigneesFor
  exact flatMap_single _ _

theorem countP_enum_fst {α : Type} (q : Nat → Bool) (l : List α) :
    l.enum.countP (fun kd => q kd.1) = (List.range l.length).countP q := by
  rw [← List.enum_map_fst l, List.countP_map]
  rfl

/-- Number of k < M with k ≡ i (mod N). -/
theorem countP_range_mod (N i : Nat) (hN : 0 < N) (hi : i < N) :
    ∀ M : Nat, (List.range M).countP (fun k => decide (k % N = i))
      = M / N + (if i < M % N then 1 else 0) := by
  intro M
  induction M with
  | zero => simp
  | succ m ih =>
    rw [List.range_succ, List.countP_append, ih]
    have hda := Nat.div_add_mod m N
    have hrlt : m % N < N := Nat.mod_lt _ hN
    have hsingle : (List.countP (fun k => decide (k % N = i)) [m])
        = if m % N = i then 1 else 0 := by
      simp [List.countP_cons]
    rw [hsingle]
    by_cases hr : m % N + 1 < N
    · have hdm : (m + 1) / N = m / N ∧ (m + 1) % N = m % N + 1 :=
        (Nat.div_mod_unique hN).mpr ⟨by omega, hr⟩
      rw [hdm.1, hdm.2]
      split_ifs <;> omega
    · have hrN : m % N + 1 = N := by omega
      have hdm : (m + 1) / N = m / N + 1 ∧ (m + 1) % N = 0 :=
        (Nat.div_mod_unique hN).mpr ⟨by rw [Nat.mul_succ]; omega, hN⟩
      rw [hdm.1, hdm.2]
      split_ifs <;> omega

/-- `(M + N - 1) / N` is the ceiling of M / N. -/
theorem ceil_div_eq (M N : Nat) (hN : 0 < N) :
    (M + N - 1) / N = M / N + (if M % N = 0 then 0 else 1) := by
  have hda := Nat.div_add_mod M N
  have hrlt : M % N < N := Nat.mod_lt _ hN
  by_cases hr : M % N = 0
  · have h2 : (M + N - 1) / N = M / N ∧ (M + N - 1) % N = N - 1 :=
      (Nat.div_mod_unique hN).mpr ⟨by omega, by omega⟩
    rw [h2.1, if_pos hr]
    omega
  · have h2 : (M + N - 1) / N = M / N + 1 ∧ (M + N - 1) % N = M % N - 1 :=
      (Nat.div_mod_unique hN).mpr ⟨by rw [Nat.mul_succ]; omega, by omega⟩
    rw [h2.1, if_neg hr]

/-- C7: for a round-robin recurring template expanded over the M
generated due dates with N (distinct) children, exactly one child is
assigned per generated date, the i-th generated date deterministically
receives child number i mod N of the ordered child list, and child i
receives M / N instances plus one more exactly when i < M mod N — hence
every child receives ⌊M/N⌋ or ⌈M/N⌉ instances. -/
theorem spec_c7_round_robin_fairness (ids : List String) (rr : Recurrence)
    (start : CalDate) (hN : 0 < ids.length) (hnd : ids.Nodup) :
    (expandTemplate ids .roundRobin (some rr) start).length = (genDates rr start).length
    ∧ (∀ (i : Nat) (h1 : i < (expandTemplate ids .roundRobin (some rr) start).length)
          (h2 : i < (genDates rr start).length),
        (expandTemplate ids .roundRobin (some rr) start).get ⟨i, h1⟩
          = ((genDates rr start).get ⟨i, h2⟩, ids.getD (i % ids.length) ""))
    ∧ ∀ (i : Nat) (hi : i < ids.length),
        ((expandTemplate ids .roundRobin (some rr) start).countP (fun p => p.2 == ids[i])
            = (genDates rr start).length / ids.length
              + (if i < (genDates rr start).length % ids.length then 1 else 0))
        ∧ ((expandTemplate ids .roundRobin (some rr) start).countP (fun p => p.2 == ids[i])
              = (genDates rr start).length / ids.length
          ∨ (expandTemplate ids .roundRobin (some rr) start).countP (fun p => p.2 == ids[i])
              = ((genDates rr start).length + ids.length - 1) / ids.length) := by
  rw [expandTemplate_roundRobin ids rr start]
  refine ⟨by simp, ?_, ?_⟩
  · intro i h1 h2
    simp only [List.get_eq_getElem, List.getElem_map]
    rw [List.getElem_enum]
  · intro i hi
    have hq : ∀ k : Nat,
        (ids.getD (k % ids.length) "" == ids[i]) = decide (k % ids.length = i) := by
      intro k
      have hmod : k % ids.length < ids.length := Nat.mod_lt _ hN
      rw [List.getD_eq_getElem ids ("") hmod]
      by_cases he : k % ids.length = i
      · simp [he]
      · have hne : ids[k % ids.length] ≠ ids[i] := by
          intro hc
          exact he ((List.Nodup.getElem_inj_iff hnd).mp hc)
        simp [he, hne]
    have hcount :
        ((genDates rr start).enum.map
            (fun kd => (kd.2, ids.getD (kd.1 % ids.length) ""))).countP
            (fun p => p.2 == ids[i])
          = (genDates rr start).length / ids.length
              + (if i < (genDates rr start).length % ids.length then 1 else 0) := by
      rw [List.countP_map]
      have hstep : List.countP
            ((fun p : CalDate × String => p.2 == ids[i]) ∘
              (fun kd : Nat × CalDate => (kd.2, ids.getD (kd.1 % ids.length) "")))
            (genDates rr start).enum
          = List.countP (fun kd : Nat × CalDate => decide (kd.1 % ids.length = i))
              (genDates rr start).enum := by
        refine List.countP_congr ?_
        intro kd hkd
        show (ids.getD (kd.1 % ids.length) "" == ids[i]) = true ↔
          decide (kd.1 % ids.length = i) = true
        rw [hq kd.1]
      rw [hstep]
      rw [countP_enum_fst (fun k => decide (k % ids.length = i)) (genDates rr start)]
      exact countP_range_mod ids.length i hN hi _
    refine ⟨hcount, ?_⟩
    rw [hcount]
    have hda := Nat.div_add_mod (genDates rr start).length ids.length
    have hrlt : (genDates rr start).length % ids.length < ids.length := Nat.mod_lt _ hN
    rw [ceil_div_eq _ _ hN]
    by_cases hz : (genDates rr start).length % ids.length = 0
    · left
      rw [hz]
      simp
    · by_cases hlt : i < (genDates rr start).length % ids.length
      · right
        rw [if_pos hlt, if_neg hz]
      · left
        rw [if_neg hlt]
        omega

/-- Witness for C7 at a concrete input: two children, a daily template —
the second generated date goes to the second child. -/
theorem spec_c7_witness :
    0 < (["a", "b"] : List String).length ∧ (["a", "b"] : List String).Nodup ∧
    (∀ (h1 : 1 < (expandTemplate ["a", "b"] .roundRobin (some .daily) ⟨2025, 3, 1⟩).length)
        (h2 : 1 < (genDates .daily ⟨2025, 3, 1⟩).length),
      (expandTemplate ["a", "b"] .roundRobin (some .daily) ⟨2025, 3, 1⟩).get ⟨1, h1⟩
        = ((genDates .daily ⟨2025, 3, 1⟩).get ⟨1, h2⟩,
           (["a", "b"] : List String).getD (1 % 2) "")) :=
  ⟨by decide, by decide,
   fun h1 h2 =>
     (spec_c7_round_robin_fairness ["a", "b"] .daily ⟨2025, 3, 1⟩
        (by decide) (by decide)).2.1 1 h1 h2⟩

/-! ## Per-assignee accumulator lemmas -/

theorem sumKey_nil (uid : String) : sumKey uid [] = 0 := rfl

theorem sumKey_cons (uid k : String) (v : Nat) (t : List (String × Nat)) :
    sumKey uid ((k, v) :: t) = (if k = uid then v else 0) + sumKey uid t := by
  unfold sumKey
  rw [List.filter_cons]
  by_cases h : k = uid
  · simp [h]
  · simp [h]

theorem sumKey_append (uid : String) (s t : List (String × Nat)) :
    sumKey uid (s ++ t) = sumKey uid s + sumKey uid t := by
  unfold sumKey
  rw [List.filter_append, List.map_append, List.sum_append]

theorem mem_keysOf_any (u : String) (acc : List (String × Nat)) :
    u ∈ keysOf acc ↔ acc.any (fun q => q.1 == u) = true := by
  simp only [keysOf, List.mem_map, List.any_eq_true, beq_iff_eq]

theorem keysOf_bump (u : String) (a : Nat) (acc : List (String × Nat)) :
    keysOf (bump u a acc)
      = if acc.any (fun q => q.1 == u) then keysOf acc else keysOf acc ++ [u] := by
  unfold bump keysOf
  split_ifs with h
  · rw [List.map_map]
    refine List.map_congr_left ?_
    intro q _
    simp only [Function.comp_apply]
    split_ifs <;> rfl
  · simp

theorem keysNodup_bump (u : String) (a : Nat) (acc : List (String × Nat))
    (h : (keysOf acc).Nodup) : (keysOf (bump u a acc)).Nodup := by
  rw [keysOf_bump]
  split_ifs with hc
  · exact h
  · rw [List.nodup_append]
    refine ⟨h, List.nodup_singleton u, ?_⟩
    intro x hx hx'
    rcases List.mem_singleton.mp hx' with rfl
    exact hc ((mem_keysOf_any x acc).mp hx)

theorem sumKey_map_bump (w u : String) (a : Nat) :
    ∀ acc : List (String × Nat), (keysOf acc).Nodup →
      acc.any (fun q => q.1 == u) = true →
      sumKey w (acc.map (fun q => if q.1 == u then (q.1, q.2 + a) else q))
        = sumKey w acc + if w = u then a else 0 := by
  intro acc
  induction acc with
  | nil => intro _ h; simp at h
  | cons p rest ih =>
    intro hnd hany
    rcases p with ⟨k, v⟩
    have hnd' : (keysOf rest).Nodup := (List.nodup_cons.mp hnd).2
    by_cases hp : k = u
    · have hmapid : rest.map (fun q => if q.1 == u then (q.1, q.2 + a) else q) = rest := by
        have hrest : ∀ q ∈ rest, (if (q.1 == u) = true then (q.1, q.2 + a) else q) = q := by
          intro q hq
          have hqu : q.1 ≠ u := by
            intro he
            have hm : (k, v).1 ∈ keysOf rest := by
              show k ∈ keysOf rest
              rw [hp, ← he]
              exact List.mem_map.mpr ⟨q, hq, rfl⟩
            exact (List.nodup_cons.mp hnd).1 hm
          simp [hqu]
        calc rest.map (fun q => if q.1 == u then (q.1, q.2 + a) else q)
            = rest.map id := List.map_congr_left (fun q hq => by rw [hrest q hq]; rfl)
          _ = rest := List.map_id rest
      have hhead : (if (((k, v) : String × Nat).1 == u) = true
            then (((k, v) : String × Nat).1, ((k, v) : String × Nat).2 + a)
            else ((k, v) : String × Nat)) = (k, v + a) := by
        simp [hp]
      rw [List.map_cons, hhead, hmapid, sumKey_cons, sumKey_cons]
      by_cases hw : k = w
      · have hwu : w = u := by rw [← hw, hp]
        rw [if_pos hw, if_pos hw, if_pos hwu]
        omega
      · have hwu : ¬ w = u := by
          intro he
          exact hw (by rw [hp, ← he])
        rw [if_neg hw, if_neg hw, if_neg hwu]
        omega
    · have hany' : rest.any (fun q => q.1 == u) = true := by
        rcases List.any_eq_true.mp hany with ⟨q, hq, hqu⟩
        rcases List.mem_cons.mp hq with rfl | hq'
        · exact absurd (beq_iff_eq.mp hqu) hp
        · exact List.any_eq_true.mpr ⟨q, hq', hqu⟩
      have hhead : (if (((k, v) : String × Nat).1 == u) = true
            then (((k, v) : String × Nat).1, ((k, v) : String × Nat).2 + a)
            else ((k, v) : String × Nat)) = (k, v) := by
        simp [hp]
      rw [List.map_cons, hhead, sumKey_cons, sumKey_cons, ih hnd' hany']
      omega

theorem sumKey_bump (w u : String) (a : Nat) (acc : List (String × Nat))
    (hnd : (keysOf acc).Nodup) :
    sumKey w (bump u a acc) = sumKey w acc + if w = u then a else 0 := by
  by_cases hc : acc.any (fun q => q.1 == u) = true
  · have hb : bump u a acc = acc.map (fun q => if q.1 == u then (q.1, q.2 + a) else q) := by
      unfold bump
      rw [if_pos hc]
    rw [hb]
    exact sumKey_map_bump w u a acc hnd hc
  · have hb : bump u a acc = acc ++ [(u, a)] := by
      unfold bump
      rw [if_neg hc]
    rw [hb, sumKey_append, sumKey_cons, sumKey_nil]
    by_cases hw : w = u
    · rw [if_pos (hw.symm), if_pos hw]
      omega
    · rw [if_neg (fun h => hw h.symm), if_neg hw]

theorem sumKey_accumFrom (l : List (String × Nat)) :
    ∀ acc : List (String × Nat), (keysOf acc).Nodup → ∀ w,
      sumKey w (accumFrom acc l) = sumKey w acc + sumKey w l := by
  induction l with
  | nil => intro acc _ w; simp [accumFrom, sumKey_nil]
  | cons p rest ih =>
    intro acc hnd w
    have hstep : accumFrom acc (p :: rest) = accumFrom (bump p.1 p.2 acc) rest := rfl
    rw [hstep, ih (bump p.1 p.2 acc) (keysNodup_bump p.1 p.2 acc hnd) w]
    rcases p with ⟨u, a⟩
    rw [sumKey_bump w u a acc hnd, sumKey_cons]
    by_cases hw : w = u
    · subst hw
      simp
      omega
    · have : u ≠ w := fun h => hw h.symm
      simp [this, hw]

theorem sumKey_accumulate (l : List (String × Nat)) (w : String) :
    sumKey w (accumulate l) = sumKey w l := by
  unfold accumulate
  rw [sumKey_accumFrom l [] (by simp [keysOf]) w, sumKey_nil]
  omega

theorem keysNodup_accumFrom (l : List (String × Nat)) :
    ∀ acc : List (String × Nat), (keysOf acc).Nodup →
      (keysOf (accumFrom acc l)).Nodup := by
  induction l with
  | nil => intro acc h; exact h
  | cons p rest ih =>
    intro acc hnd
    exact ih (bump p.1 p.2 acc) (keysNodup_bump p.1 p.2 acc hnd)

theorem keysNodup_accumulate (l : List (String × Nat)) :
    (keysOf (accumulate l)).Nodup :=
  keysNodup_accumFrom l [] (by simp [keysOf])

theorem toFinset_keysOf_bump (u : String) (a : Nat) (acc : List (String × Nat)) :
    (keysOf (bump u a acc)).toFinset = insert u (keysOf acc).toFinset := by
  rw [keysOf_bump]
  split_ifs with hc
  · have hu : u ∈ (keysOf acc).toFinset :=
      List.mem_toFinset.mpr ((mem_keysOf_any u acc).mpr hc)
    rw [Finset.insert_eq_self.mpr hu]
  · rw [List.toFinset_append]
    ext x
    simp [or_comm]

theorem length_accumFrom (l : List (String × Nat)) :
    ∀ acc : List (String × Nat), (keysOf acc).Nodup →
      (accumFrom acc l).length = ((keysOf acc).toFinset ∪ (keysOf l).toFinset).card := by
  induction l with
  | nil =>
    intro acc hnd
    have h1 : (accumFrom acc []).length = acc.length := rfl
    have h2 : acc.length = (keysOf acc).length := by simp [keysOf]
    rw [h1, h2, ← List.toFinset_card_of_nodup hnd]
    congr 1
    simp [keysOf]
  | cons p rest ih =>
    intro acc hnd
    have hstep : accumFrom acc (p :: rest) = accumFrom (bump p.1 p.2 acc) rest := rfl
    rw [hstep, ih (bump p.1 p.2 acc) (keysNodup_bump p.1 p.2 acc hnd)]
    rw [toFinset_keysOf_bump]
    congr 1
    ext x
    have hk : keysOf (p :: rest) = p.1 :: keysOf rest := rfl
    rw [hk]
    simp only [Finset.mem_union, Finset.mem_insert, List.mem_toFinset, List.mem_cons]
    tauto

theorem length_accumulate (l : List (String × Nat)) :
    (accumulate l).length = (keysOf l).toFinset.card := by
  unfold accumulate
  rw [length_accumFrom l [] (by simp [keysOf])]
  have h0 : keysOf ([] : List (String × Nat)) = [] := rfl
  rw [h0]
  simp

/-- Witness for C1 at a concrete input: rescheduling the same daily
round-robin template against the store produced by the first run
inserts zero new instances and leaves the store unchanged. -/
theorem spec_c1_witness :
    scheduleMany
        (createEventDocs ("fam") ("Dishes") 10 ("chore") ["a", "b"] .roundRobin
          (some .daily) ⟨2025, 3, 1⟩)
        (scheduleMany
          (createEventDocs ("fam") ("Dishes") 10 ("chore") ["a", "b"] .roundRobin
            (some .daily) ⟨2025, 3, 1⟩) []).1
      = ((scheduleMany
            (createEventDocs ("fam") ("Dishes") 10 ("chore") ["a", "b"] .roundRobin
              (some .daily) ⟨2025, 3, 1⟩) []).1, 0) :=
  (spec_c1_idempotent_scheduling ("fam") ("Dishes") 10 ("chore") ["a", "b"] .roundRobin
    (some .daily) ⟨2025, 3, 1⟩ []).1

/-! ## Missed-task sweep -/

theorem keysOf_map_pair {α : Type} (key : α → String) (f : α → Nat) (l : List α) :
    keysOf (l.map (fun t => (key t, f t))) = l.map key := by
  unfold keysOf
  rw [List.map_map]
  rfl

theorem sumKey_map_pair {α : Type} (uid : String) (key : α → String) (f : α → Nat) :
    ∀ l : List α,
      sumKey uid (l.map (fun t => (key t, f t)))
        = ((l.filter (fun t => key t == uid)).map f).sum := by
  intro l
  induction l with
  | nil => rfl
  | cons t rest ih =>
    rw [List.map_cons, sumKey_cons, List.filter_cons]
    by_cases h : key t = uid
    · simp only [h, beq_self_eq_true, if_true, List.map_cons, List.sum_cons]
      omega
    · have hb : (key t == uid) = false := beq_eq_false_iff_ne.mpr h
      simp only [h, hb, if_false, Bool.false_eq_true]
      omega

theorem sum_map_filter_pos {α : Type} (f : α → Nat) :
    ∀ l : List α,
      ((l.filter (fun t => decide (0 < f t))).map f).sum = (l.map f).sum := by
  intro l
  induction l with
  | nil => rfl
  | cons t rest ih =>
    rw [List.filter_cons, List.map_cons, List.sum_cons]
    by_cases h : 0 < f t
    · rw [if_pos (by simpa using h), List.map_cons, List.sum_cons, ih]
    · rw [if_neg (by simpa using h), ih]
      omega

/-- The total penalty actually debited from `uid` by one sweep run:
the sum of `floor(points * 0.5)` over `uid`'s candidate tasks. -/
theorem sweepPenalties_sumKey (yesterday : CalDate) (tasks : List Task) (uid : String) :
    sumKey uid (sweepPenalties yesterday tasks)
      = (((tasks.filter (isMissedCandidate yesterday)).filter
            (fun t => t.assignedTo == uid)).map
          (fun t => missedTaskPenalty t.points)).sum := by
  unfold sweepPenalties
  rw [sumKey_accumulate]
  rw [sumKey_map_pair uid (fun t : Task => t.assignedTo)
      (fun t : Task => missedTaskPenalty t.points)]
  rw [List.filter_comm (fun t : Task => t.assignedTo == uid)
      (fun t : Task => decide (0 < missedTaskPenalty t.points))]
  exact sum_map_filter_pos (fun t : Task => missedTaskPenalty t.points) _

theorem markMissed_not_candidate (yesterday : CalDate) (now : Nat) (tasks : List Task) :
    ∀ t ∈ markMissedEvents yesterday now tasks, isMissedCandidate yesterday t = false := by
  intro t ht
  rcases List.mem_map.mp ht with ⟨s, _, rfl⟩
  by_cases hc : isMissedCandidate yesterday s
  · rw [if_pos hc]
    unfold isMissedCandidate at hc ⊢
    simp only [decide_eq_true_eq] at hc
    simp
  · rw [if_neg hc]
    exact Bool.not_eq_true _ |>.mp hc

/-- C2: one sweep run marks exactly the tasks due yesterday and still
'assigned' as 'missed' (stamping `missed_at`), leaves every other task
untouched, debits each assignee's current points by the sum of
`floor(P * 0.5)` over that assignee's swept tasks in one batched
decrement per distinct (positively penalised) assignee, and a second run
over the resulting store changes no task and produces no penalty. -/
theorem spec_c2_sweep_penalty (yesterday : CalDate) (now now2 : Nat)
    (tasks : List Task) (bal : String → Int) :
    (markMissedEvents yesterday now tasks).length = tasks.length
    ∧ (∀ (i : Nat) (h1 : i < (markMissedEvents yesterday now tasks).length)
          (h2 : i < tasks.length),
        (markMissedEvents yesterday now tasks).get ⟨i, h1⟩
          = if isMissedCandidate yesterday (tasks.get ⟨i, h2⟩) then
              { tasks.get ⟨i, h2⟩ with status := "missed", missedAt := some now }
            else tasks.get ⟨i, h2⟩)
    ∧ (∀ uid : String,
        applyUserDecs (sweepPenalties yesterday tasks) bal uid
          = bal uid
            - ((((tasks.filter (isMissedCandidate yesterday)).filter
                  (fun t => t.assignedTo == uid)).map
                (fun t => missedTaskPenalty t.points)).sum : Nat))
    ∧ (sweepPenalties yesterday tasks).length
        = (((tasks.filter (isMissedCandidate yesterday)).filter
              (fun t => decide (0 < missedTaskPenalty t.points))).map
            (fun t => t.assignedTo)).toFinset.card
    ∧ (keysOf (sweepPenalties yesterday tasks)).Nodup
    ∧ markMissedEvents yesterday now2 (markMissedEvents yesterday now tasks)
        = markMissedEvents yesterday now tasks
    ∧ sweepPenalties yesterday (markMissedEvents yesterday now tasks) = [] := by
  refine ⟨by simp [markMissedEvents], ?_, ?_, ?_, keysNodup_accumulate _, ?_, ?_⟩
  · intro i h1 h2
    simp only [markMissedEvents, List.get_eq_getElem, List.getElem_map]
  · intro uid
    unfold applyUserDecs
    rw [sweepPenalties_sumKey]
  · unfold sweepPenalties
    rw [length_accumulate, keysOf_map_pair]
  · unfold markMissedEvents
    rw [List.map_map]
    refine List.map_congr_left ?_
    intro t _
    by_cases hc : isMissedCandidate yesterday t
    · simp only [Function.comp_apply, if_pos hc]
      have hnc : isMissedCandidate yesterday
          { t with status := "missed", missedAt := some now } = false := by
        unfold isMissedCandidate
        simp
      rw [if_neg (by simp [hnc])]
    · simp only [Function.comp_apply, if_neg hc, if_neg hc]
  · unfold sweepPenalties
    have hfil : (markMissedEvents yesterday now tasks).filter
        (isMissedCandidate yesterday) = [] := by
      rw [List.filter_eq_nil_iff]
      intro t ht
      rw [markMissed_not_candidate yesterday now tasks t ht]
      simp
    rw [hfil]
    rfl

/-- Witness for C2 at a concrete input: a 10-point chore due yesterday
and still assigned costs its child exactly floor(10 * 0.5) = 5 current
points after one sweep run. -/
theorem spec_c2_witness :
    applyUserDecs
        (sweepPenalties ⟨2025, 3, 9⟩
          [{ points := 10, assignedTo := "kid", status := "assigned",
             dueDate := ⟨2025, 3, 9⟩, missedAt := none }])
        (fun _ => (0 : Int)) "kid"
      = (fun _ => (0 : Int)) "kid"
        - ((((([{ points := 10, assignedTo := "kid", status := "assigned",
                  dueDate := ⟨2025, 3, 9⟩, missedAt := none }] : List Task).filter
                (isMissedCandidate ⟨2025, 3, 9⟩)).filter
              (fun t => t.assignedTo == "kid")).map
            (fun t => missedTaskPenalty t.points)).sum : Nat) :=
  (spec_c2_sweep_penalty ⟨2025, 3, 9⟩ 0 0
      [{ points := 10, assignedTo := "kid", status := "assigned",
         dueDate := ⟨2025, 3, 9⟩, missedAt := none }]
      (fun _ => (0 : Int))).2.2.1 ("kid")

/-! ## Bulk approval -/

theorem bulkPointsToAward_sumKey (famId : String) (eventIds : List Nat)
    (tasks : List BulkTask) (uid : String) :
    sumKey uid (bulkPointsToAward famId eventIds tasks)
      = (((tasks.filter (bulkSelected famId eventIds)).filter
            (fun t => t.assignedTo == uid)).map (fun t => t.points)).sum := by
  unfold bulkPointsToAward
  rw [sumKey_accumulate]
  rw [sumKey_map_pair uid (fun t : BulkTask => t.assignedTo) (fun t : BulkTask => t.points)]
  rw [List.filter_comm (fun t : BulkTask => t.assignedTo == uid)
      (fun t : BulkTask => decide (0 < t.points))]
  exact sum_map_filter_pos (fun t : BulkTask => t.points) _

theorem mem_bulkValidIds_iff (famId : String) (eventIds : List Nat)
    (tasks : List BulkTask) (hnd : (tasks.map (fun t => t.id)).Nodup)
    (t : BulkTask) (ht : t ∈ tasks) :
    t.id ∈ bulkValidIds famId eventIds tasks ↔ bulkSelected famId eventIds t = true := by
  unfold bulkValidIds
  constructor
  · intro h
    rcases List.mem_map.mp h with ⟨s, hs, hid⟩
    have hsmem : s ∈ tasks := List.mem_of_mem_filter hs
    have hsel : bulkSelected famId eventIds s = true := List.of_mem_filter hs
    have hst : s = t := List.inj_on_of_nodup_map hnd hsmem ht hid
    rw [← hst]
    exact hsel
  · intro h
    exact List.mem_map.mpr ⟨t, List.mem_filter.mpr ⟨ht, h⟩, rfl⟩

/-- C5: bulk approval flips exactly the submitted tasks that belong to
the parent's family and are 'completed' to 'approved', credits each
distinct assignee's current and lifetime points by the sum of that
assignee's task points across the batch, and issues one ledger write per
distinct assignee with a positive sum — not one per task. -/
theorem spec_c5_bulk_approval (famId : String) (eventIds : List Nat) (now : Nat)
    (tasks : List BulkTask) (bal : String → Balances)
    (hnd : (tasks.map (fun t => t.id)).Nodup) :
    (bulkApproveEvents famId eventIds now tasks).length = tasks.length
    ∧ (∀ (i : Nat) (h1 : i < (bulkApproveEvents famId eventIds now tasks).length)
          (h2 : i < tasks.length),
        (bulkApproveEvents famId eventIds now tasks).get ⟨i, h1⟩
          = if bulkSelected famId eventIds (tasks.get ⟨i, h2⟩) then
              { tasks.get ⟨i, h2⟩ with status := "approved", approvedAt := some now }
            else tasks.get ⟨i, h2⟩)
    ∧ (∀ uid : String,
        (applyUserIncs (bulkPointsToAward famId eventIds tasks) bal uid).points
            = (bal uid).points
              + ((((tasks.filter (bulkSelected famId eventIds)).filter
                    (fun t => t.assignedTo == uid)).map (fun t => t.points)).sum : Nat)
        ∧ (applyUserIncs (bulkPointsToAward famId eventIds tasks) bal uid).lifetimePoints
            = (bal uid).lifetimePoints
              + ((((tasks.filter (bulkSelected famId eventIds)).filter
                    (fun t => t.assignedTo == uid)).map (fun t => t.points)).sum : Nat))
    ∧ (bulkPointsToAward famId eventIds tasks).length
        = (((tasks.filter (bulkSelected famId eventIds)).filter
              (fun t => decide (0 < t.points))).map (fun t => t.assignedTo)).toFinset.card
    ∧ (keysOf (bulkPointsToAward famId eventIds tasks)).Nodup := by
  refine ⟨by simp [bulkApproveEvents], ?_, ?_, ?_, keysNodup_accumulate _⟩
  · intro i h1 h2
    simp only [bulkApproveEvents, List.get_eq_getElem, List.getElem_map]
    have hmem : tasks[i] ∈ tasks := List.getElem_mem h2
    by_cases hsel : bulkSelected famId eventIds tasks[i] = true
    · rw [if_pos ((mem_bulkValidIds_iff famId eventIds tasks hnd _ hmem).mpr hsel),
        if_pos hsel]
    · rw [if_neg (fun hc =>
          hsel ((mem_bulkValidIds_iff famId eventIds tasks hnd _ hmem).mp hc)),
        if_neg hsel]
  · intro uid
    constructor
    · show (bal uid).points
          + ((sumKey uid (bulkPointsToAward famId eventIds tasks) : Nat) : Int) = _
      rw [bulkPointsToAward_sumKey]
    · show (bal uid).lifetimePoints
          + ((sumKey uid (bulkPointsToAward famId eventIds tasks) : Nat) : Int) = _
      rw [bulkPointsToAward_sumKey]
  · unfold bulkPointsToAward
    rw [length_accumulate, keysOf_map_pair]

/-- Witness for C5 at a concrete input: one completed 10-point chore in
the batch credits its child 10 current and 10 lifetime points. -/
theorem spec_c5_witness :
    ((([{ id := 1, familyId := "fam", assignedTo := "kid", points := 10,
          status := "completed", approvedAt := none }] : List BulkTask).map
        (fun t => t.id)).Nodup)
    ∧ (applyUserIncs
          (bulkPointsToAward ("fam") [1]
            [{ id := 1, familyId := "fam", assignedTo := "kid", points := 10,
               status := "completed", approvedAt := none }])
          (fun _ => ({ points := 0, lifetimePoints := 0 } : Balances)) "kid").points
        = ((fun _ => ({ points := 0, lifetimePoints := 0 } : Balances)) "kid").points
          + (((((([{ id := 1, familyId := "fam", assignedTo := "kid", points := 10,
                     status := "completed", approvedAt := none }] : List BulkTask).filter
                  (bulkSelected ("fam") [1])).filter
                (fun t => t.assignedTo == "kid")).map (fun t => t.points)).sum : Nat)) :=
  ⟨by decide,
   ((spec_c5_bulk_approval ("fam") [1] 0
      [{ id := 1, familyId := "fam", assignedTo := "kid", points := 10,
         status := "completed", approvedAt := none }]
      (fun _ => ({ points := 0, lifetimePoints := 0 } : Balances))
      (by decide)).2.2.1 ("kid")).1⟩

/-! ## Habit check-in -/

/-- C3: a habit check-in (for a habit not blocked by the missed guard)
increments the streak by exactly 1 when the last completion's local date
is yesterday, resets it to 1 when there is no last completion or the gap
is not exactly one day, always records today as `last_completed` and
immediately credits the habit's points to both current and lifetime
balances with no approval stage, and a second check-in on the same local
date is rejected leaving habit and balances unchanged. -/
theorem spec_c3_habit_streak (today : Int) (h : Habit) (b : Balances)
    (hm : h.status ≠ "missed") :
    (h.lastCompleted = some (today - 1) →
      checkinHabit today h b
        = some ({ h with streak := h.streak + 1, lastCompleted := some today },
                { points := b.points + (h.points : Int),
                  lifetimePoints := b.lifetimePoints + (h.points : Int) }))
    ∧ ((h.lastCompleted = none ∨
          (∃ d : Int, h.lastCompleted = some d ∧ d ≠ today ∧ d ≠ today - 1)) →
      checkinHabit today h b
        = some ({ h with streak := 1, lastCompleted := some today },
                { points := b.points + (h.points : Int),
                  lifetimePoints := b.lifetimePoints + (h.points : Int) }))
    ∧ (∀ (h' : Habit) (b' : Balances), checkinHabit today h b = some (h', b') →
        h'.lastCompleted = some today ∧ h'.status = h.status ∧ h'.points = h.points
        ∧ b'.points = b.points + (h.points : Int)
        ∧ b'.lifetimePoints = b.lifetimePoints + (h.points : Int))
    ∧ (h.lastCompleted = some today →
        checkinHabit today h b = none ∧ checkinHabitEffect today h b = (h, b))
    ∧ (∀ (h' : Habit) (b' : Balances), checkinHabit today h b = some (h', b') →
        checkinHabit today h' b' = none ∧ checkinHabitEffect today h' b' = (h', b')) := by
  refine ⟨?_, ?_, ?_, ?_, ?_⟩
  · intro hl
    unfold checkinHabit
    rw [if_neg hm, hl,
      if_neg (by simp only [Option.some.injEq]; omega : ¬ some (today - 1) = some today),
      if_pos rfl]
  · intro hl
    unfold checkinHabit
    rcases hl with hl | ⟨d, hl, hd1, hd2⟩
    · rw [if_neg hm, hl,
        if_neg (by simp : ¬ (none : Option Int) = some today),
        if_neg (by simp : ¬ (none : Option Int) = some (today - 1))]
    · rw [if_neg hm, hl,
        if_neg (by simp only [Option.some.injEq]; exact hd1),
        if_neg (by simp only [Option.some.injEq]; exact hd2)]
  · intro h' b' hsome
    unfold checkinHabit at hsome
    rw [if_neg hm] at hsome
    by_cases ht : h.lastCompleted = some today
    · rw [if_pos ht] at hsome
      exact absurd hsome (by simp)
    · rw [if_neg ht] at hsome
      simp only [Option.some.injEq, Prod.mk.injEq] at hsome
      obtain ⟨hh, hb⟩ := hsome
      rw [← hh, ← hb]
      exact ⟨rfl, rfl, rfl, rfl, rfl⟩
  · intro ht
    have h1 : checkinHabit today h b = none := by
      unfold checkinHabit
      rw [if_neg hm, if_pos ht]
    exact ⟨h1, by unfold checkinHabitEffect; rw [h1]⟩
  · intro h' b' hsome
    unfold checkinHabit at hsome
    rw [if_neg hm] at hsome
    by_cases ht : h.lastCompleted = some today
    · rw [if_pos ht] at hsome
      exact absurd hsome (by simp)
    · rw [if_neg ht] at hsome
      simp only [Option.some.injEq, Prod.mk.injEq] at hsome
      obtain ⟨hh, hb⟩ := hsome
      have h1 : checkinHabit today h' b' = none := by
        unfold checkinHabit
        rw [← hh]
        rw [if_neg hm, if_pos rfl]
      exact ⟨h1, by unfold checkinHabitEffect; rw [h1]⟩

/-- Witness for C3 at a concrete input: a habit last completed
yesterday, streak 2, checked in on day 10, reaches streak 3. -/
theorem spec_c3_witness :
    ({ points := 5, streak := 2, lastCompleted := some 9,
       status := "assigned" } : Habit).status ≠ "missed"
    ∧ checkinHabit 10
        { points := 5, streak := 2, lastCompleted := some 9, status := "assigned" }
        { points := 0, lifetimePoints := 0 }
      = some ({ points := 5, streak := 3, lastCompleted := some 10,
                status := "assigned" },
              { points := 5, lifetimePoints := 5 }) :=
  ⟨by decide,
   by
    have hstep := (spec_c3_habit_streak 10
      { points := 5, streak := 2, lastCompleted := some 9, status := "assigned" }
      { points := 0, lifetimePoints := 0 } (by decide)).1 (by decide)
    rw [hstep]
    rfl⟩

/-- C10: the check-in of a habit whose status is 'missed' is rejected
outright — before the already-checked-in-today test — and leaves the
habit and the child's balances unchanged. -/
theorem spec_c10_missed_habit_guard (today : Int) (h : Habit) (b : Balances)
    (hm : h.status = "missed") :
    checkinHabit today h b = none ∧ checkinHabitEffect today h b = (h, b) := by
  have h1 : checkinHabit today h b = none := by
    unfold checkinHabit
    rw [if_pos hm]
  exact ⟨h1, by unfold checkinHabitEffect; rw [h1]⟩

/-- Witness for C10 at a concrete input: a missed habit that has not
been checked in today is still rejected. -/
theorem spec_c10_witness :
    ({ points := 5, streak := 2, lastCompleted := some 3,
       status := "missed" } : Habit).status = "missed"
    ∧ checkinHabit 10
        { points := 5, streak := 2, lastCompleted := some 3, status := "missed" }
        { points := 0, lifetimePoints := 0 } = none :=
  ⟨rfl,
   (spec_c10_missed_habit_guard 10
      { points := 5, streak := 2, lastCompleted := some 3, status := "missed" }
      { points := 0, lifetimePoints := 0 } rfl).1⟩

/-! ## Reward redemption -/

/-- C4: a reward request is permitted exactly when the requester's
current points cover the cost and immediately debits exactly the cost;
denial credits exactly the cost back (exact round-trip to the initial
balance); approval makes no further balance change; and only a pending
request may be resolved — re-resolution is rejected with no change. -/
theorem spec_c4_reward_ledger (cost : Nat) (points : Int) :
    ((requestReward cost points).isSome ↔ (cost : Int) ≤ points)
    ∧ (∀ (p' : Int) (req : RewardRequest), requestReward cost points = some (p', req) →
        p' = points - (cost : Int) ∧ req.cost = cost ∧ req.status = "pending")
    ∧ (∀ (p' : Int) (req : RewardRequest), requestReward cost points = some (p', req) →
        resolveRewardRequest .deny req p' = some ({ req with status := "denied" }, points))
    ∧ (∀ (p' : Int) (req : RewardRequest), requestReward cost points = some (p', req) →
        resolveRewardRequest .approve req p'
          = some ({ req with status := "approved" }, p'))
    ∧ (∀ (req : RewardRequest) (p : Int) (a : ResolveAction), req.status ≠ "pending" →
        resolveRewardRequest a req p = none)
    ∧ (∀ (a a' : ResolveAction) (req req' : RewardRequest) (p p' : Int),
        resolveRewardRequest a req p = some (req', p') →
        resolveRewardRequest a' req' p' = none) := by
  have hreq : ∀ (p' : Int) (req : RewardRequest), requestReward cost points = some (p', req) →
      p' = points - (cost : Int) ∧ req.cost = cost ∧ req.status = "pending" := by
    intro p' req hsome
    unfold requestReward at hsome
    by_cases hlt : points < (cost : Int)
    · rw [if_pos hlt] at hsome
      exact absurd hsome (by simp)
    · rw [if_neg hlt] at hsome
      simp only [Option.some.injEq, Prod.mk.injEq] at hsome
      obtain ⟨hp, hr⟩ := hsome
      rw [← hp, ← hr]
      exact ⟨rfl, rfl, rfl⟩
  refine ⟨?_, hreq, ?_, ?_, ?_, ?_⟩
  · unfold requestReward
    by_cases hlt : points < (cost : Int)
    · rw [if_pos hlt]
      simp only [Option.isSome_none, Bool.false_eq_true, false_iff]
      omega
    · rw [if_neg hlt]
      simp only [Option.isSome_some, true_iff]
      omega
  · intro p' req hsome
    obtain ⟨hp, hc, hst⟩ := hreq p' req hsome
    unfold resolveRewardRequest
    rw [if_pos hst]
    have harith : p' + (req.cost : Int) = points := by
      rw [hp, hc]
      omega
    rw [harith]
  · intro p' req hsome
    obtain ⟨_, _, hst⟩ := hreq p' req hsome
    unfold resolveRewardRequest
    rw [if_pos hst]
  · intro req p a hst
    unfold resolveRewardRequest
    rw [if_neg hst]
  · intro a a' req req' p p' hsome
    unfold resolveRewardRequest at hsome
    by_cases hst : req.status = "pending"
    · rw [if_pos hst] at hsome
      cases a with
      | approve =>
        simp only [Option.some.injEq, Prod.mk.injEq] at hsome
        obtain ⟨hr, _⟩ := hsome
        have hst' : ¬ req'.status = "pending" := by
          rw [← hr]
          show ¬ ("approved" = "pending")
          decide
        unfold resolveRewardRequest
        rw [if_neg hst']
      | deny =>
        simp only [Option.some.injEq, Prod.mk.injEq] at hsome
        obtain ⟨hr, _⟩ := hsome
        have hst' : ¬ req'.status = "pending" := by
          rw [← hr]
          show ¬ ("denied" = "pending")
          decide
        unfold resolveRewardRequest
        rw [if_neg hst']
    · rw [if_neg hst] at hsome
      exact absurd hsome (by simp)

/-- Witness for C4 at a concrete input: a 30-point reward requested on
a balance of 100 debits to 70; denial refunds back to 100. -/
theorem spec_c4_witness :
    requestReward 30 100 = some (70, { cost := 30, status := "pending" })
    ∧ resolveRewardRequest .deny { cost := 30, status := "pending" } 70
        = some ({ cost := 30, status := "denied" }, 100) :=
  ⟨by decide,
   by
    have hd := (spec_c4_reward_ledger 30 100).2.2.1 70
      { cost := 30, status := "pending" } (by decide)
    rw [hd]⟩

/-! ## Points-ledger monotonicity -/

/-- C8: every points-ledger mutation leaves lifetime points unchanged or
larger: chore approval, bulk approval, habit check-in and challenge
approval increment both current and lifetime points by the award, while
the missed-task penalty, the reward-request debit and the denial refund
change only current points.  The habit check-in and the batched
per-assignee bulk increments realise exactly the corresponding ledger
operations. -/
theorem spec_c8_lifetime_monotone :
    (∀ (op : LedgerOp) (b : Balances),
      b.lifetimePoints ≤ (applyLedgerOp op b).lifetimePoints)
    ∧ (∀ (a : Nat) (b : Balances),
        applyLedgerOp (.approveChore a) b
            = { points := b.points + (a : Int),
                lifetimePoints := b.lifetimePoints + (a : Int) }
        ∧ applyLedgerOp (.bulkApproveUser a) b
            = { points := b.points + (a : Int),
                lifetimePoints := b.lifetimePoints + (a : Int) }
        ∧ applyLedgerOp (.habitCheckinCredit a) b
            = { points := b.points + (a : Int),
                lifetimePoints := b.lifetimePoints + (a : Int) }
        ∧ applyLedgerOp (.challengeApprove a) b
            = { points := b.points + (a : Int),
                lifetimePoints := b.lifetimePoints + (a : Int) }
        ∧ (applyLedgerOp (.missedPenaltyDec a) b).lifetimePoints = b.lifetimePoints
        ∧ (applyLedgerOp (.rewardRequestDebit a) b).lifetimePoints = b.lifetimePoints
        ∧ (applyLedgerOp (.rewardDenyRefund a) b).lifetimePoints = b.lifetimePoints)
    ∧ (∀ (today : Int) (h : Habit) (b : Balances) (h' : Habit) (b' : Balances),
        checkinHabit today h b = some (h', b') →
        b' = applyLedgerOp (.habitCheckinCredit h.points) b)
    ∧ (∀ (updates : List (String × Nat)) (bal : String → Balances) (uid : String),
        applyUserIncs updates bal uid
          = applyLedgerOp (.bulkApproveUser (sumKey uid updates)) (bal uid)) := by
  refine ⟨?_, ?_, ?_, ?_⟩
  · intro op b
    cases op <;> simp only [applyLedgerOp] <;> omega
  · intro a b
    exact ⟨rfl, rfl, rfl, rfl, rfl, rfl, rfl⟩
  · intro today h b h' b' hsome
    unfold checkinHabit at hsome
    by_cases hm : h.status = "missed"
    · rw [if_pos hm] at hsome
      exact absurd hsome (by simp)
    · rw [if_neg hm] at hsome
      by_cases ht : h.lastCompleted = some today
      · rw [if_pos ht] at hsome
        exact absurd hsome (by simp)
      · rw [if_neg ht] at hsome
        simp only [Option.some.injEq, Prod.mk.injEq] at hsome
        rw [← hsome.2]
        rfl
  · intro updates bal uid
    rfl

/-- Witness for C8 at a concrete input: a successful 5-point habit
check-in performs exactly the habit-credit ledger operation. -/
theorem spec_c8_witness :
    checkinHabit 10
        { points := 5, streak := 0, lastCompleted := none, status := "assigned" }
        { points := 2, lifetimePoints := 7 }
      = some ({ points := 5, streak := 1, lastCompleted := some 10,
                status := "assigned" },
              { points := 7, lifetimePoints := 12 })
    ∧ ({ points := 7, lifetimePoints := 12 } : Balances)
        = applyLedgerOp (.habitCheckinCredit 5) { points := 2, lifetimePoints := 7 } :=
  ⟨by decide,
   spec_c8_lifetime_monotone.2.2.1 10
     { points := 5, streak := 0, lastCompleted := none, status := "assigned" }
     { points := 2, lifetimePoints := 7 }
     { points := 5, streak := 1, lastCompleted := some 10, status := "assigned" }
     { points := 7, lifetimePoints := 12 } (by decide)⟩

/-! ## No forgive operation -/

/-- C9 counterexample: contrary to the claim, the code has no forgive
operation — no event-status write in app.py ever stores the value
'forgiven' (the statuses written are exactly assigned, completed,
approved and missed). -/
theorem spec_c9_counterexample :
    ¬ ∃ w : EventStatusWrite, writtenStatus w = "forgiven" := by
  rintro ⟨w, hw⟩
  cases w <;> revert hw <;> decide

/-- C9 (amended): there is no parent forgive operation: no operation
writes the status 'forgiven', and a task with status 'missed' is
excluded by the guards of every status-changing operation — the sweep
only selects 'assigned' tasks, bulk approval only selects 'completed'
tasks, and the habit check-in rejects missed habits — so missed tasks
stay missed and no points are restored. -/
theorem spec_c9_no_forgive_operation :
    (∀ w : EventStatusWrite, writtenStatus w ≠ "forgiven")
    ∧ (∀ (yd : CalDate) (t : Task), t.status = "missed" →
        isMissedCandidate yd t = false)
    ∧ (∀ (famId : String) (ids : List Nat) (t : BulkTask), t.status = "missed" →
        bulkSelected famId ids t = false)
    ∧ (∀ (today : Int) (h : Habit) (b : Balances), h.status = "missed" →
        checkinHabit today h b = none) := by
  refine ⟨?_, ?_, ?_, ?_⟩
  · intro w
    cases w <;> decide
  · intro yd t hm
    unfold isMissedCandidate
    simp only [decide_eq_false_iff_not, not_and]
    intro _
    rw [hm]
    decide
  · intro famId ids t hm
    unfold bulkSelected
    simp only [decide_eq_false_iff_not, not_and]
    intro _ _
    rw [hm]
    decide
  · intro today h b hm
    unfold checkinHabit
    rw [if_pos hm]

/-- Witness for C9's amended theorem at a concrete input: a missed task
due yesterday is not selected by the sweep. -/
theorem spec_c9_witness :
    ({ points := 10, assignedTo := "kid", status := "missed",
       dueDate := ⟨2025, 3, 9⟩, missedAt := some 1 } : Task).status = "missed"
    ∧ isMissedCandidate ⟨2025, 3, 9⟩
        { points := 10, assignedTo := "kid", status := "missed",
          dueDate := ⟨2025, 3, 9⟩, missedAt := some 1 } = false :=
  ⟨rfl,
   spec_c9_no_forgive_operation.2.1 ⟨2025, 3, 9⟩
     { points := 10, assignedTo := "kid", status := "missed",
       dueDate := ⟨2025, 3, 9⟩, missedAt := some 1 } rfl⟩

end FamJam
